import Mathlib

/-
Verification of the EM algorithm for a multinomial mixture model, as
implemented by the class EM_algo in 3_EM_Algorithm_Tutorial.ipynb.
Floating point arithmetic is modelled by exact real arithmetic; numpy
division by zero (which yields NaN) is modelled by the Lean convention
x / 0 = 0, and a row of log-weights is finite by construction (the
-inf / NaN propagation of numpy has no finite-real counterpart, which is
noted where it matters).
-/

open Finset

/-- Row maximum, as in np.max(m, 1) applied to one row. -/
noncomputable def rowMax {K : ℕ} [NeZero K] (row : Fin K → ℝ) : ℝ :=
  Finset.univ.sup' Finset.univ_nonempty row

/-- The document-topic log-weight matrix built by the loop in E_step:
dt_temp[doc, topic] = log(rhos[topic]) + (data[doc] * log(betas[topic])).sum(). -/
noncomputable def logWeights {D V K : ℕ} (data : Fin D → Fin V → ℝ)
    (rhos : Fin K → ℝ) (betas : Fin K → Fin V → ℝ) : Fin D → Fin K → ℝ :=
  fun doc topic => Real.log (rhos topic) + ∑ v, data doc v * Real.log (betas topic v)

/-- The function complete_ll of the notebook (both the module-level copy and
the copy nested in E_step have this body).  Its first line shifts its
argument dt_matrix by the row maxima of dt_matrix, but the term it adds
back is dt_temp.max(1).sum() where dt_temp is a variable of the ENCLOSING
scope, not the parameter; so the embedding takes that enclosing variable as
an explicit first argument. -/
noncomputable def complete_ll {D K : ℕ} [NeZero K] (dt_temp dt_matrix : Fin D → Fin K → ℝ) : ℝ :=
  (∑ d, Real.log (∑ k, Real.exp (dt_matrix d k - rowMax (fun j => dt_matrix d j))))
    + ∑ d, rowMax (fun j => dt_temp d j)

/-- The mutable attributes of an EM_algo instance (data, D, V, K are carried
as type indices).  zs and ll are unset by the constructor; they are
initialised to 0 there and only ever read after E_step has set them. -/
@[ext] structure EMState (D V K : ℕ) where
  rhos : Fin K → ℝ
  betas : Fin K → Fin V → ℝ
  zs : Fin D → Fin K → ℝ
  ll : ℝ
  ll_history : List ℝ

/-- EM_algo.E_step: build dt_temp, set self.ll = complete_ll(dt_temp) (the
nested closure reads the same dt_temp it is passed), append it to
self.ll_history, and set self.zs = exp(dt_temp) / exp(dt_temp).sum(1). -/
noncomputable def E_step {D V K : ℕ} [NeZero K] (data : Fin D → Fin V → ℝ)
    (s : EMState D V K) : EMState D V K :=
  let dt_temp := logWeights data s.rhos s.betas
  let ll := complete_ll dt_temp dt_temp
  { s with
    ll := ll
    ll_history := s.ll_history ++ [ll]
    zs := fun d k => Real.exp (dt_temp d k) / ∑ j, Real.exp (dt_temp d j) }

/-- EM_algo.M_step: self.rhos = self.zs.sum(0)/self.D,
betas_temp = dot(self.zs.T, self.data),
self.betas = betas_temp / betas_temp.sum(1)[:, newaxis]. -/
noncomputable def M_step {D V K : ℕ} (data : Fin D → Fin V → ℝ)
    (s : EMState D V K) : EMState D V K :=
  let betas_temp := fun k v => ∑ d, s.zs d k * data d v
  { s with
    rhos := fun k => (∑ d, s.zs d k) / (D : ℝ)
    betas := fun k v => betas_temp k v / ∑ w, betas_temp k w }

/-- One iteration of the body of the while loop of EM_algo.iterate:
an E_step followed by an M_step. -/
noncomputable def EMpair {D V K : ℕ} [NeZero K] (data : Fin D → Fin V → ℝ)
    (s : EMState D V K) : EMState D V K :=
  M_step data (E_step data s)

/-- Terminal status of the convergence driver. -/
inductive EMStatus where
  | Converged
  | MaxIterationsReached
deriving DecidableEq, Repr

/-- The quantity self.ll - self.ll_history[-2] tested by EM_algo.iterate
(meaningful once the trajectory has at least two entries). -/
noncomputable def stepDiff {D V K : ℕ} (s : EMState D V K) : ℝ :=
  s.ll - s.ll_history.getD (s.ll_history.length - 2) 0

/-- EM_algo.iterate(tolerance, max_iter), with explicit fuel standing for the
unbounded while loop (none = the loop did not finish within the fuel).
Each pass runs E_step then M_step; if the trajectory has exactly one entry
it continues without touching count; a difference below tolerance breaks
with Converged; count > max_iter breaks with MaxIterationsReached;
otherwise count is incremented and the loop repeats. -/
noncomputable def iterateGo {D V K : ℕ} [NeZero K] (data : Fin D → Fin V → ℝ)
    (tolerance : ℝ) (max_iter : ℕ) :
    ℕ → ℕ → EMState D V K → Option (EMState D V K × EMStatus)
  | 0, _, _ => none
  | fuel + 1, count, s =>
    let s1 := EMpair data s
    if s1.ll_history.length = 1 then
      iterateGo data tolerance max_iter fuel count s1
    else if stepDiff s1 < tolerance then
      some (s1, EMStatus.Converged)
    else if max_iter < count then
      some (s1, EMStatus.MaxIterationsReached)
    else
      iterateGo data tolerance max_iter fuel (count + 1) s1

/-- The one exception the constructor can raise: `prior_rhos==None` (and
`prior_betas==None`) is a numpy elementwise comparison, and using its array
result as a branch condition raises
"ValueError: The truth value of an array with more than one element is
ambiguous" whenever the array has two or more entries. -/
inductive PyError where
  | valueErrorAmbiguousTruth
deriving DecidableEq, Repr

/-- EM_algo.__init__(data, K, prior_rhos, prior_betas).  D and V are the
shape of data; dirichletDraw stands for the np.random.dirichlet(V*[1], K)
sample used when no prior betas are given.  An omitted prior (None) passes
the `==None` test and triggers the default; a supplied array prior makes
`prior==None` an elementwise boolean array: with a single entry it is
falsy, so the prior is stored UNCHANGED (no shape or probability
validation anywhere), and with two or more entries the branch raises.
zs and ll are not set by __init__ (initialised to 0 here). -/
noncomputable def EM_init (D V K : ℕ) (prior_rhos : Option (Fin K → ℝ))
    (prior_betas : Option (Fin K → Fin V → ℝ))
    (dirichletDraw : Fin K → Fin V → ℝ) : Except PyError (EMState D V K) :=
  match prior_rhos with
  | none =>
    match prior_betas with
    | none =>
      Except.ok ⟨fun _ => 1 / (K : ℝ), dirichletDraw, fun _ _ => 0, 0, []⟩
    | some b =>
      if 2 ≤ K * V then Except.error PyError.valueErrorAmbiguousTruth
      else Except.ok ⟨fun _ => 1 / (K : ℝ), b, fun _ _ => 0, 0, []⟩
  | some r =>
    if 2 ≤ K then Except.error PyError.valueErrorAmbiguousTruth
    else
      match prior_betas with
      | none => Except.ok ⟨r, dirichletDraw, fun _ _ => 0, 0, []⟩
      | some b =>
        if 2 ≤ K * V then Except.error PyError.valueErrorAmbiguousTruth
        else Except.ok ⟨r, b, fun _ _ => 0, 0, []⟩

/-! ### Basic lemmas about the E-step -/

lemma rowMax_le_iff {K : ℕ} [NeZero K] (row : Fin K → ℝ) (k : Fin K) :
    row k ≤ rowMax row :=
  Finset.le_sup' row (Finset.mem_univ k)

/-- The value complete_ll(dt_temp) computed inside E_step, written as the
per-document sum of log-sum-exp terms of the specification. -/
lemma complete_ll_self {D K : ℕ} [NeZero K] (t : Fin D → Fin K → ℝ) :
    complete_ll t t =
      ∑ d, (rowMax (fun j => t d j)
        + Real.log (∑ k, Real.exp (t d k - rowMax (fun j => t d j)))) := by
  rw [complete_ll, ← Finset.sum_add_distrib]
  exact Finset.sum_congr rfl fun d _ => add_comm _ _

lemma E_step_ll {D V K : ℕ} [NeZero K] (data : Fin D → Fin V → ℝ) (s : EMState D V K) :
    (E_step data s).ll
      = complete_ll (logWeights data s.rhos s.betas) (logWeights data s.rhos s.betas) := rfl

lemma E_step_history {D V K : ℕ} [NeZero K] (data : Fin D → Fin V → ℝ) (s : EMState D V K) :
    (E_step data s).ll_history = s.ll_history ++ [(E_step data s).ll] := rfl

lemma E_step_zs {D V K : ℕ} [NeZero K] (data : Fin D → Fin V → ℝ) (s : EMState D V K) :
    (E_step data s).zs = fun d k =>
      Real.exp (logWeights data s.rhos s.betas d k)
        / ∑ j, Real.exp (logWeights data s.rhos s.betas d j) := rfl

/-- C1: one call to E_step computes the log-weight matrix
L[d,k] = log(rho[k]) + sum_v X[d,v]*log(beta[k,v]), computes the corpus
log-likelihood sum_d (B_d + log sum_k exp(L[d,k] - B_d)) with B_d the row
maximum of L, and appends exactly that value as one new entry at the end of
the likelihood trajectory. -/
theorem E_step_spec {D V K : ℕ} [NeZero K] (data : Fin D → Fin V → ℝ)
    (s : EMState D V K)
    (hrho : ∀ k, 0 < s.rhos k) (hbeta : ∀ k v, 0 < s.betas k v) :
    (E_step data s).ll_history = s.ll_history ++ [(E_step data s).ll]
      ∧ (E_step data s).ll
        = ∑ d, (rowMax (fun k => Real.log (s.rhos k) + ∑ v, data d v * Real.log (s.betas k v))
            + Real.log (∑ k, Real.exp ((Real.log (s.rhos k) + ∑ v, data d v * Real.log (s.betas k v))
              - rowMax (fun j => Real.log (s.rhos j) + ∑ v, data d v * Real.log (s.betas j v))))) := by
  refine ⟨E_step_history data s, ?_⟩
  rw [E_step_ll, complete_ll_self]
  rfl

/-- Concrete fixture: a one-document, one-word, one-topic model with count
matrix [[1]], rho = [1], beta = [[1]]. -/
noncomputable def X1 : Fin 1 → Fin 1 → ℝ := fun _ _ => 1

/-- Concrete fixture state for X1 (zs and ll unset, trajectory empty). -/
noncomputable def S11 : EMState 1 1 1 :=
  ⟨fun _ => 1, fun _ _ => 1, fun _ _ => 0, 0, []⟩

theorem E_step_spec_witness :
    ((∀ k, 0 < S11.rhos k) ∧ (∀ k v, 0 < S11.betas k v))
      ∧ ((E_step X1 S11).ll_history = S11.ll_history ++ [(E_step X1 S11).ll]
        ∧ (E_step X1 S11).ll
          = ∑ d, (rowMax (fun k => Real.log (S11.rhos k) + ∑ v, X1 d v * Real.log (S11.betas k v))
              + Real.log (∑ k, Real.exp ((Real.log (S11.rhos k) + ∑ v, X1 d v * Real.log (S11.betas k v))
                - rowMax (fun j => Real.log (S11.rhos j) + ∑ v, X1 d v * Real.log (S11.betas j v)))))) :=
  ⟨⟨fun _ => by simp [S11], fun _ _ => by simp [S11]⟩,
    E_step_spec X1 S11 (fun _ => by simp [S11]) (fun _ _ => by simp [S11])⟩

/-- C3: after every E_step call (each row of the log-weight matrix being a
row of real numbers, hence with at least one finite entry as soon as there
is at least one topic), every row of the responsibility matrix zs sums
exactly to 1 in exact arithmetic. -/
theorem E_step_z_rows {D V K : ℕ} [NeZero K] (data : Fin D → Fin V → ℝ)
    (s : EMState D V K) :
    ∀ d, ∑ k, (E_step data s).zs d k = 1 := by
  intro d
  rw [E_step_zs]
  have hpos : 0 < ∑ j, Real.exp (logWeights data s.rhos s.betas d j) :=
    Finset.sum_pos (fun j _ => Real.exp_pos _) Finset.univ_nonempty
  rw [← Finset.sum_div]
  exact div_self hpos.ne'

theorem E_step_z_rows_witness :
    ∑ k, (E_step X1 S11).zs 0 k = 1 :=
  E_step_z_rows X1 S11 0

/-! ### M-step lemmas -/

lemma M_step_rhos {D V K : ℕ} (data : Fin D → Fin V → ℝ) (s : EMState D V K) :
    (M_step data s).rhos = fun k => (∑ d, s.zs d k) / (D : ℝ) := rfl

lemma M_step_betas {D V K : ℕ} (data : Fin D → Fin V → ℝ) (s : EMState D V K) :
    (M_step data s).betas
      = fun k v => (∑ d, s.zs d k * data d v) / ∑ w, ∑ d, s.zs d k * data d w := rfl

/-- The row sum of betas_temp equals the responsibility-weighted total count
of the topic. -/
lemma betas_temp_row_sum {D V K : ℕ} (data : Fin D → Fin V → ℝ)
    (s : EMState D V K) (k : Fin K) :
    ∑ w, ∑ d, s.zs d k * data d w = ∑ d, s.zs d k * ∑ v, data d v := by
  rw [Finset.sum_comm]
  exact Finset.sum_congr rfl fun d _ => (Finset.mul_sum _ _ _).symm

/-- C2 (amended): if D >= 1, every row of Z sums to 1 and, in addition, no
responsibility-weighted total count is zero, then M_step sets
rho[k] = (sum_d Z[d,k])/D and the new parameters satisfy both simplex
invariants with equality in exact arithmetic.  (The extra hypothesis is
forced: with a zero total the beta row is 0/0.) -/
theorem M_step_simplex {D V K : ℕ} (data : Fin D → Fin V → ℝ)
    (s : EMState D V K) (hD : 0 < D)
    (hz : ∀ d, ∑ k, s.zs d k = 1)
    (hden : ∀ k, (∑ d, s.zs d k * ∑ v, data d v) ≠ 0) :
    ((M_step data s).rhos = fun k => (∑ d, s.zs d k) / (D : ℝ))
      ∧ (∑ k, (M_step data s).rhos k = 1)
      ∧ (∀ k, ∑ v, (M_step data s).betas k v = 1) := by
  have hDne : (D : ℝ) ≠ 0 := Nat.cast_ne_zero.mpr hD.ne'
  refine ⟨rfl, ?_, ?_⟩
  · rw [M_step_rhos, ← Finset.sum_div, Finset.sum_comm]
    have : ∑ d, ∑ k, s.zs d k = (D : ℝ) := by
      rw [Finset.sum_congr rfl fun d _ => hz d]
      simp
    rw [this, div_self hDne]
  · intro k
    rw [M_step_betas]
    have hd : (∑ w, ∑ d, s.zs d k * data d w) ≠ 0 := by
      rw [betas_temp_row_sum]
      exact hden k
    rw [← Finset.sum_div, div_self hd]

/-- Concrete degenerate fixture: count matrix [[1]] with K = 2 and
responsibilities Z = [[1, 0]]; topic 1 receives zero responsibility mass. -/
noncomputable def XCE : Fin 1 → Fin 1 → ℝ := fun _ _ => 1

/-- State carrying the degenerate responsibility matrix [[1, 0]]. -/
noncomputable def SCE : EMState 1 1 2 :=
  ⟨fun _ => 1 / 2, fun _ _ => 1 / 2, fun _ k => if k = 0 then 1 else 0, 0, []⟩

/-- C2 counterexample: the rows of Z sum to 1 and D = 1, yet after M_step
the beta row of topic 1 sums to 0, not to 1 within 1e-6: the claimed
guarantee fails without an extra non-degeneracy hypothesis. -/
theorem M_step_simplex_cex :
    (∀ d, ∑ k, SCE.zs d k = 1)
      ∧ ¬ (∀ k, |(∑ v, (M_step XCE SCE).betas k v) - 1| ≤ 1 / 1000000) := by
  constructor
  · intro d
    simp [SCE, Fin.sum_univ_two]
  · intro h
    have h1 := h 1
    rw [M_step_betas] at h1
    simp only [SCE, XCE, Fin.sum_univ_one] at h1
    norm_num at h1

/-- Fixture with responsibilities already set: D = V = K = 1, Z = [[1]]. -/
noncomputable def SW : EMState 1 1 1 :=
  ⟨fun _ => 1, fun _ _ => 1, fun _ _ => 1, 0, []⟩

theorem M_step_simplex_witness :
    (0 < 1 ∧ (∀ d, ∑ k, SW.zs d k = 1)
        ∧ (∀ k, (∑ d, SW.zs d k * ∑ v, X1 d v) ≠ 0))
      ∧ (((M_step X1 SW).rhos = fun k => (∑ d, SW.zs d k) / ((1 : ℕ) : ℝ))
        ∧ (∑ k, (M_step X1 SW).rhos k = 1)
        ∧ (∀ k, ∑ v, (M_step X1 SW).betas k v = 1)) :=
  ⟨⟨Nat.one_pos, fun _ => by simp [SW], fun _ => by simp [SW, X1]⟩,
    M_step_simplex X1 SW Nat.one_pos (fun _ => by simp [SW])
      (fun _ => by simp [SW, X1])⟩

/-- C6 (amended): the code contains no degeneracy check at all.  When the
responsibility-weighted total count of topic k is zero, M_step still
returns a state (there is no error path), and every entry of the offending
beta row is the result of a division by zero (NaN in numpy; 0 under the
exact-arithmetic convention), so the returned parameters violate the
simplex invariant instead of a NumericalDegenerate error being raised. -/
theorem M_step_degenerate {D V K : ℕ} (data : Fin D → Fin V → ℝ)
    (s : EMState D V K) (k : Fin K)
    (h : (∑ d, s.zs d k * ∑ v, data d v) = 0) :
    ∀ v, (M_step data s).betas k v = 0 := by
  intro v
  simp only [M_step_betas]
  rw [show (∑ w, ∑ d, s.zs d k * data d w) = 0 from (betas_temp_row_sum data s k).trans h]
  exact div_zero _

theorem M_step_degenerate_witness :
    ((∑ d, SCE.zs d 1 * ∑ v, XCE d v) = 0)
      ∧ (∀ v, (M_step XCE SCE).betas 1 v = 0) :=
  ⟨by simp [SCE, XCE], M_step_degenerate XCE SCE 1 (by simp [SCE, XCE])⟩

/-- C6 counterexample: on the degenerate input (Z = [[1,0]], X = [[1]]) the
M-step total of topic 1 is zero, yet M_step returns normally (its type has
no error outcome) and hands back a beta row summing to 0 - i.e. NaN-laden
parameters in floating point - rather than aborting with a
NumericalDegenerate error, which the code never raises. -/
theorem M_step_degenerate_cex :
    ((∑ d, SCE.zs d 1 * ∑ v, XCE d v) = 0)
      ∧ (M_step XCE SCE).betas 1 0 = 0
      ∧ (∑ v, (M_step XCE SCE).betas 1 v) = 0 := by
  refine ⟨by simp [SCE, XCE], ?_, ?_⟩
  · rw [M_step_betas]
    simp [SCE, XCE]
  · rw [M_step_betas]
    simp [SCE, XCE]

/-! ### Constructor behaviour -/

/-- C10: supplying an explicit array prior_rhos when K >= 2 (or an explicit
array prior_betas with at least two entries) makes the constructor raise
the numpy ambiguous-truth-value ValueError instead of storing the prior,
because `prior==None` is an elementwise comparison. -/
theorem EM_init_array_prior_raises {D V K : ℕ}
    (r : Fin K → ℝ) (pb : Option (Fin K → Fin V → ℝ))
    (b : Fin K → Fin V → ℝ) (dir : Fin K → Fin V → ℝ) :
    (2 ≤ K → EM_init D V K (some r) pb dir
        = Except.error PyError.valueErrorAmbiguousTruth)
      ∧ (2 ≤ K * V → EM_init D V K none (some b) dir
        = Except.error PyError.valueErrorAmbiguousTruth) := by
  constructor
  · intro hK
    simp [EM_init, hK]
  · intro hKV
    simp [EM_init, hKV]

theorem EM_init_array_prior_raises_witness :
    (2 ≤ 2
      → EM_init 1 1 2 (some fun _ => 1 / 2) none (fun _ _ => 1 / 10)
        = Except.error PyError.valueErrorAmbiguousTruth)
      ∧ (2 ≤ 2 * 1
      → EM_init 1 1 2 none (some fun _ _ => 1 / 10) (fun _ _ => 1 / 10)
        = Except.error PyError.valueErrorAmbiguousTruth) :=
  EM_init_array_prior_raises (fun _ => 1 / 2) none (fun _ _ => 1 / 10) (fun _ _ => 1 / 10)

/-- C7 (amended): the constructor performs no validation whatsoever.  A
supplied prior of numpy size 1 is stored unchanged even when it is not a
probability vector (no InvalidProbability), while any supplied prior with
two or more entries raises the ambiguous-truth-value ValueError regardless
of its validity (no InvalidShape); no renormalization ever happens. -/
theorem EM_init_no_validation {D V : ℕ} (dir : Fin 1 → Fin V → ℝ) :
    (∀ r : Fin 1 → ℝ, EM_init D V 1 (some r) none dir
        = Except.ok ⟨r, dir, fun _ _ => 0, 0, []⟩)
      ∧ (∀ K : ℕ, ∀ r : Fin K → ℝ, ∀ dir2 : Fin K → Fin V → ℝ, 2 ≤ K →
        EM_init D V K (some r) none dir2
          = Except.error PyError.valueErrorAmbiguousTruth) := by
  constructor
  · intro r
    simp [EM_init]
  · intro K r dir2 hK
    simp [EM_init, hK]

theorem EM_init_no_validation_witness :
    (EM_init 1 1 1 (some fun _ => 7 / 10) none (fun _ _ => 1)
        = Except.ok ⟨fun _ => 7 / 10, fun _ _ => 1, fun _ _ => 0, 0, []⟩)
      ∧ (2 ≤ 2 ∧ EM_init 1 1 2 (some fun _ => 1 / 2) none (fun _ _ => 1)
        = Except.error PyError.valueErrorAmbiguousTruth) :=
  ⟨(EM_init_no_validation (fun _ _ => 1)).1 (fun _ => 7 / 10),
    by norm_num,
    (EM_init_no_validation (fun _ _ => 1)).2 2 (fun _ => 1 / 2) (fun _ _ => 1) (by norm_num)⟩

/-- C7 counterexample: the prior rho = [0.7] has a row sum of 0.7, far from
1, so the specified contract requires the construction to fail with
InvalidProbability; instead the constructor accepts it and stores it
unchanged (and its error type cannot even express InvalidShape or
InvalidProbability). -/
theorem EM_init_accepts_invalid_prior_cex :
    ¬ (|(∑ _k : Fin 1, (7 / 10 : ℝ)) - 1| ≤ 1 / 1000000)
      ∧ EM_init 1 1 1 (some fun _ => 7 / 10) none (fun _ _ => 1)
        = Except.ok ⟨fun _ => 7 / 10, fun _ _ => 1, fun _ _ => 0, 0, []⟩ := by
  constructor
  · norm_num [abs_le]
  · simp [EM_init]

/-! ### Impurity of complete_ll -/

/-- Enclosing-scope matrix [[1]] for the complete_ll impurity check. -/
noncomputable def dtOuter : Fin 1 → Fin 1 → ℝ := fun _ _ => 1

/-- Passed argument [[0]] for the complete_ll impurity check. -/
noncomputable def dtArg : Fin 1 → Fin 1 → ℝ := fun _ _ => 0

lemma rowMax_fin_one (f : Fin 1 → ℝ) : rowMax f = f 0 := by
  refine le_antisymm (Finset.sup'_le _ _ fun b _ => ?_) (Finset.le_sup' _ (Finset.mem_univ 0))
  rw [Subsingleton.elim b 0]

/-- C9: the claim that complete_ll is a pure function of its passed matrix is
false of the code.  With the enclosing dt_temp equal to [[1]] and the
argument equal to [[0]], complete_ll returns 1 (it adds the row maxima of
the ENCLOSING dt_temp), while the claimed formula
sum_d (max_k M[d,k] + log sum_k exp(M[d,k] - max_k M[d,k])) evaluates to 0
on the argument.  Both the module-level copy and the copy nested in E_step
have this body; they return the documented value only at the accidental
call complete_ll(dt_temp). -/
theorem complete_ll_impure :
    complete_ll dtOuter dtArg = 1
      ∧ (∑ d, (rowMax (fun k => dtArg d k)
          + Real.log (∑ k, Real.exp (dtArg d k - rowMax (fun j => dtArg d j))))) = 0
      ∧ complete_ll dtOuter dtArg
        ≠ ∑ d, (rowMax (fun k => dtArg d k)
          + Real.log (∑ k, Real.exp (dtArg d k - rowMax (fun j => dtArg d j)))) := by
  have h1 : complete_ll dtOuter dtArg = 1 := by
    rw [complete_ll]
    simp [dtOuter, dtArg, rowMax_fin_one]
  have h2 : (∑ d, (rowMax (fun k => dtArg d k)
      + Real.log (∑ k, Real.exp (dtArg d k - rowMax (fun j => dtArg d j))))) = 0 := by
    simp [dtArg, rowMax_fin_one]
  exact ⟨h1, h2, by rw [h1, h2]; norm_num⟩

/-! ### Structural lemmas for the driver loop -/

lemma M_step_zs {D V K : ℕ} (data : Fin D → Fin V → ℝ) (s : EMState D V K) :
    (M_step data s).zs = s.zs := rfl

lemma M_step_ll {D V K : ℕ} (data : Fin D → Fin V → ℝ) (s : EMState D V K) :
    (M_step data s).ll = s.ll := rfl

lemma M_step_history {D V K : ℕ} (data : Fin D → Fin V → ℝ) (s : EMState D V K) :
    (M_step data s).ll_history = s.ll_history := rfl

lemma EMpair_ll_history {D V K : ℕ} [NeZero K] (data : Fin D → Fin V → ℝ)
    (s : EMState D V K) :
    (EMpair data s).ll_history = s.ll_history ++ [(E_step data s).ll] := rfl

/-- One E/M pair appends exactly one trajectory entry, so after n pairs from
an empty trajectory the trajectory has n entries. -/
lemma iterate_history_length {D V K : ℕ} [NeZero K] (data : Fin D → Fin V → ℝ)
    (s0 : EMState D V K) (h0 : s0.ll_history = []) :
    ∀ n, ((EMpair data)^[n] s0).ll_history.length = n := by
  intro n
  induction n with
  | zero => simp [h0]
  | succ n ih =>
    rw [Function.iterate_succ_apply', EMpair_ll_history]
    simp [ih]

lemma iterateGo_succ {D V K : ℕ} [NeZero K] (data : Fin D → Fin V → ℝ)
    (tol : ℝ) (mi fuel count : ℕ) (s : EMState D V K) :
    iterateGo data tol mi (fuel + 1) count s =
      (if (EMpair data s).ll_history.length = 1 then
        iterateGo data tol mi fuel count (EMpair data s)
      else if stepDiff (EMpair data s) < tol then
        some (EMpair data s, EMStatus.Converged)
      else if mi < count then
        some (EMpair data s, EMStatus.MaxIterationsReached)
      else
        iterateGo data tol mi fuel (count + 1) (EMpair data s)) := rfl

lemma iterateGo_step_continue {D V K : ℕ} [NeZero K] (data : Fin D → Fin V → ℝ)
    (tol : ℝ) (mi fuel count : ℕ) (s : EMState D V K)
    (h1 : (EMpair data s).ll_history.length = 1) :
    iterateGo data tol mi (fuel + 1) count s
      = iterateGo data tol mi fuel count (EMpair data s) := by
  rw [iterateGo_succ, if_pos h1]

lemma iterateGo_step_conv {D V K : ℕ} [NeZero K] (data : Fin D → Fin V → ℝ)
    (tol : ℝ) (mi fuel count : ℕ) (s : EMState D V K)
    (h1 : (EMpair data s).ll_history.length ≠ 1)
    (h2 : stepDiff (EMpair data s) < tol) :
    iterateGo data tol mi (fuel + 1) count s
      = some (EMpair data s, EMStatus.Converged) := by
  rw [iterateGo_succ, if_neg h1, if_pos h2]

lemma iterateGo_step_max {D V K : ℕ} [NeZero K] (data : Fin D → Fin V → ℝ)
    (tol : ℝ) (mi fuel count : ℕ) (s : EMState D V K)
    (h1 : (EMpair data s).ll_history.length ≠ 1)
    (h2 : ¬ stepDiff (EMpair data s) < tol)
    (h3 : mi < count) :
    iterateGo data tol mi (fuel + 1) count s
      = some (EMpair data s, EMStatus.MaxIterationsReached) := by
  rw [iterateGo_succ, if_neg h1, if_neg h2, if_pos h3]

lemma iterateGo_step_next {D V K : ℕ} [NeZero K] (data : Fin D → Fin V → ℝ)
    (tol : ℝ) (mi fuel count : ℕ) (s : EMState D V K)
    (h1 : (EMpair data s).ll_history.length ≠ 1)
    (h2 : ¬ stepDiff (EMpair data s) < tol)
    (h3 : ¬ mi < count) :
    iterateGo data tol mi (fuel + 1) count s
      = iterateGo data tol mi fuel (count + 1) (EMpair data s) := by
  rw [iterateGo_succ, if_neg h1, if_neg h2, if_neg h3]

/-- Inner induction for the driver when convergence never fires: from loop
entry c with state equal to the (c+1)-st pair iterate, the loop breaks with
MaxIterationsReached at the (mi+3)-rd pair iterate. -/
lemma iterateGo_no_conv_run {D V K : ℕ} [NeZero K] (data : Fin D → Fin V → ℝ)
    (tol : ℝ) (mi : ℕ) (s0 : EMState D V K) (h0 : s0.ll_history = [])
    (hnc : ∀ n, 2 ≤ n → ¬ stepDiff ((EMpair data)^[n] s0) < tol) :
    ∀ m c fuel, c + m = mi + 1 → 1 ≤ c → m + 1 ≤ fuel →
      iterateGo data tol mi fuel c ((EMpair data)^[c + 1] s0)
        = some ((EMpair data)^[mi + 3] s0, EMStatus.MaxIterationsReached) := by
  intro m
  induction m with
  | zero =>
    intro c fuel hcm hc hfuel
    obtain ⟨f, rfl⟩ : ∃ f, fuel = f + 1 := ⟨fuel - 1, by omega⟩
    have hpair : EMpair data ((EMpair data)^[c + 1] s0) = (EMpair data)^[c + 2] s0 :=
      (Function.iterate_succ_apply' (EMpair data) (c + 1) s0).symm
    have hlen : ((EMpair data)^[c + 2] s0).ll_history.length = c + 2 :=
      iterate_history_length data s0 h0 (c + 2)
    rw [iterateGo_step_max data tol mi f c _
        (by rw [hpair, hlen]; omega)
        (by rw [hpair]; exact hnc (c + 2) (by omega))
        (by omega), hpair]
    have : c + 2 = mi + 3 := by omega
    rw [this]
  | succ m ih =>
    intro c fuel hcm hc hfuel
    obtain ⟨f, rfl⟩ : ∃ f, fuel = f + 1 := ⟨fuel - 1, by omega⟩
    have hpair : EMpair data ((EMpair data)^[c + 1] s0) = (EMpair data)^[c + 2] s0 :=
      (Function.iterate_succ_apply' (EMpair data) (c + 1) s0).symm
    have hlen : ((EMpair data)^[c + 2] s0).ll_history.length = c + 2 :=
      iterate_history_length data s0 h0 (c + 2)
    rw [iterateGo_step_next data tol mi f c _
        (by rw [hpair, hlen]; omega)
        (by rw [hpair]; exact hnc (c + 2) (by omega))
        (by omega), hpair]
    have h2 : c + 2 = (c + 1) + 1 := by ring
    rw [h2]
    exact ih (c + 1) f (by omega) (by omega) (by omega)

/-- C4 (amended): when the tolerance condition never holds at any checked
state, iterate terminates with status MaxIterationsReached as soon as the
internal count exceeds max_iter; because the first pass is exempted
(continue) and the count is incremented only after the checks, this happens
after exactly max_iter + 3 completed E-step/M-step pairs, not max_iter + 1;
the stopping rule is evaluated only once the trajectory has at least two
entries. -/
theorem iterate_maxiter {D V K : ℕ} [NeZero K] (data : Fin D → Fin V → ℝ)
    (tol : ℝ) (mi : ℕ) (s0 : EMState D V K) (h0 : s0.ll_history = [])
    (hnc : ∀ n, 2 ≤ n → ¬ stepDiff ((EMpair data)^[n] s0) < tol)
    (fuel : ℕ) (hf : mi + 3 ≤ fuel) :
    iterateGo data tol mi fuel 0 s0
        = some ((EMpair data)^[mi + 3] s0, EMStatus.MaxIterationsReached)
      ∧ ((EMpair data)^[mi + 3] s0).ll_history.length = mi + 3 := by
  refine ⟨?_, iterate_history_length data s0 h0 (mi + 3)⟩
  obtain ⟨g, rfl⟩ : ∃ g, fuel = g + 1 + 1 := ⟨fuel - 2, by omega⟩
  have h1 : EMpair data s0 = (EMpair data)^[1] s0 := (Function.iterate_one _).symm ▸ rfl
  rw [iterateGo_step_continue data tol mi (g + 1) 0 s0
      (by rw [h1]; exact iterate_history_length data s0 h0 1)]
  have hpair : EMpair data (EMpair data s0) = (EMpair data)^[1 + 1] s0 := by
    rw [Function.iterate_succ_apply', Function.iterate_one]
  rw [iterateGo_step_next data tol mi g 0 (EMpair data s0)
      (by rw [hpair, iterate_history_length data s0 h0 2]; omega)
      (by rw [hpair]; exact hnc 2 (by omega))
      (by omega), hpair]
  exact iterateGo_no_conv_run data tol mi s0 h0 hnc mi 1 g (by omega) (by omega) (by omega)

/-! ### A concrete run on which the tolerance condition never holds -/

/-- Count matrix [[0]]: one empty document over a one-word vocabulary. -/
noncomputable def X0 : Fin 1 → Fin 1 → ℝ := fun _ _ => 0

/-- Start state for the X0 run: rho = [1], beta = [[1]], empty trajectory. -/
noncomputable def S0Z : EMState 1 1 1 :=
  ⟨fun _ => 1, fun _ _ => 1, fun _ _ => 0, 0, []⟩

/-- On the empty document every E/M pair from a state with rho = [1] leaves
rho at [1], zeroes beta (0/0), sets every responsibility to 1 and appends a
0 log-likelihood. -/
lemma EMpair_X0 (s : EMState 1 1 1) (h : s.rhos = fun _ => 1) :
    EMpair X0 s
      = ⟨fun _ => 1, fun _ _ => 0, fun _ _ => 1, 0, s.ll_history ++ [0]⟩ := by
  have hdt : logWeights X0 s.rhos s.betas = fun _ _ => 0 := by
    funext d k
    simp [logWeights, X0, h]
  have hll : (E_step X0 s).ll = 0 := by
    rw [E_step_ll, hdt, complete_ll]
    simp [rowMax_fin_one]
  have hzs : (E_step X0 s).zs = fun _ _ => 1 := by
    rw [E_step_zs, hdt]
    funext d k
    rw [Fin.sum_univ_one]
    exact div_self (Real.exp_ne_zero _)
  have hist : (EMpair X0 s).ll_history = s.ll_history ++ [0] := by
    rw [EMpair, M_step_history, E_step_history, hll]
  refine EMState.ext ?_ ?_ ?_ ?_ hist
  · funext k
    rw [EMpair, M_step_rhos]
    simp [hzs]
  · funext k v
    rw [EMpair]
    simp only [M_step_betas, M_step_zs]
    simp [hzs, X0]
  · rw [EMpair, M_step_zs, hzs]
  · rw [EMpair, M_step_ll, hll]

/-- The X0 run is constant: after n+1 pairs the state is rho = [1],
beta = [[0]], zs = [[1]], ll = 0, trajectory = n+1 zeros. -/
lemma iterate_X0 : ∀ n, (EMpair X0)^[n + 1] S0Z
    = ⟨fun _ => 1, fun _ _ => 0, fun _ _ => 1, 0, List.replicate (n + 1) 0⟩ := by
  intro n
  induction n with
  | zero =>
    rw [Function.iterate_one]
    exact EMpair_X0 S0Z rfl
  | succ n ih =>
    rw [Function.iterate_succ_apply', ih, EMpair_X0 _ rfl]
    congr 1
    rw [← List.replicate_succ' (n + 1)]

lemma getD_replicate_zero : ∀ m i : ℕ, (List.replicate m (0 : ℝ)).getD i 0 = 0 := by
  intro m
  induction m with
  | zero => intro i; rfl
  | succ m ih =>
    intro i
    cases i with
    | zero => rfl
    | succ i => exact ih i

/-- Along the X0 run every step difference is exactly 0, so with
tolerance = 0 the condition difference < tolerance never fires. -/
lemma X0_never_converges : ∀ n, 2 ≤ n → ¬ stepDiff ((EMpair X0)^[n] S0Z) < (0 : ℝ) := by
  intro n hn
  obtain ⟨m, rfl⟩ : ∃ m, n = m + 1 := ⟨n - 1, by omega⟩
  rw [iterate_X0 m, stepDiff]
  simp [getD_replicate_zero]

theorem iterate_maxiter_witness :
    (S0Z.ll_history = [] ∧ (∀ n, 2 ≤ n → ¬ stepDiff ((EMpair X0)^[n] S0Z) < (0 : ℝ))
        ∧ 0 + 3 ≤ 10)
      ∧ (iterateGo X0 0 0 10 0 S0Z
          = some ((EMpair X0)^[0 + 3] S0Z, EMStatus.MaxIterationsReached)
        ∧ ((EMpair X0)^[0 + 3] S0Z).ll_history.length = 0 + 3) :=
  ⟨⟨rfl, X0_never_converges, by omega⟩,
    iterate_maxiter X0 0 0 S0Z rfl X0_never_converges 10 (by omega)⟩

/-- C4 counterexample: with max_iter = 0 and tolerance = 0 on the X0 run the
tolerance condition never holds, yet the driver only terminates (with
MaxIterationsReached) after 3 = max_iter + 3 completed E-step/M-step pairs,
refuting the claimed bound of at most max_iter + 1 pairs. -/
theorem iterate_maxiter_cex :
    Option.map (fun p => (p.1.ll_history.length, p.2)) (iterateGo X0 0 0 10 0 S0Z)
        = some (3, EMStatus.MaxIterationsReached)
      ∧ ¬ (3 ≤ 0 + 1) := by
  have p1 : EMpair X0 S0Z = ⟨fun _ => 1, fun _ _ => 0, fun _ _ => 1, 0, [0]⟩ :=
    EMpair_X0 S0Z rfl
  have p2 : EMpair X0 (⟨fun _ => 1, fun _ _ => 0, fun _ _ => 1, 0, [0]⟩ : EMState 1 1 1)
      = ⟨fun _ => 1, fun _ _ => 0, fun _ _ => 1, 0, [0, 0]⟩ :=
    EMpair_X0 _ rfl
  have p3 : EMpair X0 (⟨fun _ => 1, fun _ _ => 0, fun _ _ => 1, 0, [0, 0]⟩ : EMState 1 1 1)
      = ⟨fun _ => 1, fun _ _ => 0, fun _ _ => 1, 0, [0, 0, 0]⟩ :=
    EMpair_X0 _ rfl
  constructor
  · rw [show (10 : ℕ) = 9 + 1 by rfl,
      iterateGo_step_continue X0 0 0 9 0 S0Z (by rw [p1]; rfl),
      p1,
      show (9 : ℕ) = 8 + 1 by rfl,
      iterateGo_step_next X0 0 0 8 0 _
        (by rw [p2]; simp)
        (by rw [p2]; simp [stepDiff])
        (by omega),
      p2,
      show (8 : ℕ) = 7 + 1 by rfl,
      iterateGo_step_max X0 0 0 7 1 _
        (by rw [p3]; simp)
        (by rw [p3]; simp [stepDiff])
        (by omega),
      p3]
    rfl
  · omega

/-! ### A concrete run whose log-likelihood strictly decreases -/

/-- Start state with the invalid (but accepted) prior rho = [4] and
beta = [[1]] for the count matrix [[1]]. -/
noncomputable def S4 : EMState 1 1 1 :=
  ⟨fun _ => 4, fun _ _ => 1, fun _ _ => 0, 0, []⟩

/-- State after the first E/M pair of the S4 run. -/
noncomputable def S4A : EMState 1 1 1 :=
  ⟨fun _ => 1, fun _ _ => 1, fun _ _ => 1, Real.log 4, [Real.log 4]⟩

/-- State after the second E/M pair of the S4 run. -/
noncomputable def S4B : EMState 1 1 1 :=
  ⟨fun _ => 1, fun _ _ => 1, fun _ _ => 1, 0, [Real.log 4, 0]⟩

/-- On the count matrix [[1]] with beta = [[1]], an E/M pair appends
log(rho) to the trajectory and resets rho to [1] and beta to [[1]]. -/
lemma EMpair_X1_ones (r : ℝ) (s : EMState 1 1 1)
    (hr : s.rhos = fun _ => r) (hb : s.betas = fun _ _ => 1) :
    EMpair X1 s
      = ⟨fun _ => 1, fun _ _ => 1, fun _ _ => 1, Real.log r,
          s.ll_history ++ [Real.log r]⟩ := by
  have hdt : logWeights X1 s.rhos s.betas = fun _ _ => Real.log r := by
    funext d k
    simp [logWeights, X1, hr, hb]
  have hll : (E_step X1 s).ll = Real.log r := by
    rw [E_step_ll, hdt, complete_ll]
    simp [rowMax_fin_one]
  have hzs : (E_step X1 s).zs = fun _ _ => 1 := by
    rw [E_step_zs, hdt]
    funext d k
    rw [Fin.sum_univ_one]
    exact div_self (Real.exp_ne_zero _)
  have hist : (EMpair X1 s).ll_history = s.ll_history ++ [Real.log r] := by
    rw [EMpair, M_step_history, E_step_history, hll]
  refine EMState.ext ?_ ?_ ?_ ?_ hist
  · funext k
    rw [EMpair, M_step_rhos]
    simp [hzs]
  · funext k v
    rw [EMpair]
    simp only [M_step_betas]
    simp [hzs, X1]
  · rw [EMpair, M_step_zs, hzs]
  · rw [EMpair, M_step_ll, hll]

lemma EMpair_X1_S4 : EMpair X1 S4 = S4A :=
  EMpair_X1_ones 4 S4 rfl rfl

lemma EMpair_X1_S4A : EMpair X1 S4A = S4B := by
  rw [EMpair_X1_ones 1 S4A rfl rfl]
  simp [S4A, S4B]

lemma stepDiff_S4B : stepDiff S4B = -Real.log 4 := by
  rw [stepDiff]
  norm_num [S4B, List.getD_cons_zero]

lemma one_le_log_four : 1 ≤ Real.log 4 := by
  rw [Real.le_log_iff_exp_le (by norm_num : (0 : ℝ) < 4)]
  exact le_of_lt (lt_trans Real.exp_one_lt_d9 (by norm_num))

/-- C5 (amended): the driver treats ANY step difference below tolerance as
convergence, negative differences included: when the trajectory already has
at least two entries and the difference is at most -1e-6 (negative beyond
numerical tolerance) while the tolerance is non-negative, the loop
immediately terminates with status Converged; no warning of any kind is
surfaced (the code has no warning channel at all). -/
theorem iterate_converged_on_negative_delta {D V K : ℕ} [NeZero K]
    (data : Fin D → Fin V → ℝ) (tol : ℝ) (mi fuel count : ℕ) (s : EMState D V K)
    (h1 : (EMpair data s).ll_history.length ≠ 1)
    (h2 : stepDiff (EMpair data s) ≤ -(1 / 1000000))
    (htol : 0 ≤ tol) :
    iterateGo data tol mi (fuel + 1) count s
      = some (EMpair data s, EMStatus.Converged) :=
  iterateGo_step_conv data tol mi fuel count s h1
    (lt_of_le_of_lt h2 (lt_of_lt_of_le (by norm_num) htol))

theorem iterate_converged_on_negative_delta_witness :
    ((EMpair X1 S4A).ll_history.length ≠ 1
        ∧ stepDiff (EMpair X1 S4A) ≤ -(1 / 1000000)
        ∧ (0 : ℝ) ≤ 1 / 1000)
      ∧ iterateGo X1 (1 / 1000) 500 (4 + 1) 0 S4A
        = some (EMpair X1 S4A, EMStatus.Converged) := by
  have h1 : (EMpair X1 S4A).ll_history.length ≠ 1 := by
    rw [EMpair_X1_S4A]
    simp [S4B]
  have h2 : stepDiff (EMpair X1 S4A) ≤ -(1 / 1000000) := by
    rw [EMpair_X1_S4A, stepDiff_S4B]
    have := one_le_log_four
    linarith
  exact ⟨⟨h1, h2, by norm_num⟩,
    iterate_converged_on_negative_delta X1 (1 / 1000) 500 4 0 S4A h1 h2 (by norm_num)⟩

/-- C5 counterexample: running iterate with the default tolerance 0.001 on
the accepted (size-1, hence unvalidated) prior rho = [4], beta = [[1]] and
count matrix [[1]] produces the trajectory [log 4, 0]: the step difference
-log 4 is negative beyond any numerical tolerance (it is at most -1), yet
the driver terminates with status Converged and surfaces no warning. -/
theorem iterate_negative_delta_cex :
    iterateGo X1 (1 / 1000) 500 10 0 S4 = some (S4B, EMStatus.Converged)
      ∧ stepDiff S4B ≤ -1 := by
  have hdiff : stepDiff S4B = -Real.log 4 := stepDiff_S4B
  constructor
  · rw [show (10 : ℕ) = 9 + 1 from rfl,
      iterateGo_step_continue X1 (1 / 1000) 500 9 0 S4 (by rw [EMpair_X1_S4]; rfl),
      EMpair_X1_S4,
      show (9 : ℕ) = 8 + 1 from rfl,
      iterateGo_step_conv X1 (1 / 1000) 500 8 0 S4A
        (by rw [EMpair_X1_S4A]; simp [S4B])
        (by
          rw [EMpair_X1_S4A, hdiff]
          have := one_le_log_four
          linarith),
      EMpair_X1_S4A]
  · rw [hdiff]
    have := one_le_log_four
    linarith

/-! ### Monotonicity of the likelihood trajectory -/

/-- Gibbs / log-sum inequality: for non-negative weights a and a
non-negative sub-probability vector q that is positive wherever a is,
the a-weighted log-mass of q is at most that of the normalisation of a. -/
lemma gibbs {I : Type*} [Fintype I] (a q : I → ℝ)
    (ha : ∀ i, 0 ≤ a i) (hq0 : ∀ i, 0 ≤ q i)
    (hq : ∀ i, 0 < a i → 0 < q i) (hqs : ∑ i, q i ≤ 1) :
    ∑ i, a i * Real.log (q i) ≤ ∑ i, a i * Real.log (a i / ∑ j, a j) := by
  by_cases hA0 : (∑ j, a j) = 0
  · have hz : ∀ i ∈ Finset.univ, a i = 0 :=
      (Finset.sum_eq_zero_iff_of_nonneg fun i _ => ha i).mp hA0
    have e1 : ∑ i, a i * Real.log (q i) = 0 := by
      refine Finset.sum_eq_zero ?_
      intro i hi
      rw [hz i hi, zero_mul]
    have e2 : ∑ i, a i * Real.log (a i / ∑ j, a j) = 0 := by
      refine Finset.sum_eq_zero ?_
      intro i hi
      rw [hz i hi, zero_mul]
    rw [e1, e2]
  · have hApos : 0 < ∑ j, a j :=
      lt_of_le_of_ne (Finset.sum_nonneg fun i _ => ha i) (Ne.symm hA0)
    have key : ∀ i ∈ Finset.univ,
        a i * Real.log (q i) - a i * Real.log (a i / ∑ j, a j)
          ≤ (∑ j, a j) * q i - a i := by
      intro i _
      rcases eq_or_lt_of_le (ha i) with h0 | hpos
      · rw [← h0]
        simp only [zero_mul, sub_self, sub_zero]
        exact mul_nonneg hApos.le (hq0 i)
      · have hqi := hq i hpos
        have hAi : 0 < a i / ∑ j, a j := div_pos hpos hApos
        rw [← mul_sub, ← Real.log_div hqi.ne' hAi.ne']
        have hx : 0 < q i / (a i / ∑ j, a j) := div_pos hqi hAi
        refine le_trans
          (mul_le_mul_of_nonneg_left (Real.log_le_sub_one_of_pos hx) hpos.le) ?_
        rw [show a i * (q i / (a i / ∑ j, a j) - 1) = (∑ j, a j) * q i - a i by
          field_simp
          ring]
    have hsum := Finset.sum_le_sum key
    rw [Finset.sum_sub_distrib] at hsum
    have h3 : ∑ i, ((∑ j, a j) * q i - a i) = (∑ j, a j) * (∑ i, q i) - ∑ j, a j := by
      rw [Finset.sum_sub_distrib, ← Finset.mul_sum]
    rw [h3] at hsum
    nlinarith [mul_le_mul_of_nonneg_left hqs hApos.le]

/-- Exact log-sum-exp of one row. -/
noncomputable def lse {K : ℕ} (t : Fin K → ℝ) : ℝ :=
  Real.log (∑ k, Real.exp (t k))

lemma sum_exp_pos {K : ℕ} [NeZero K] (t : Fin K → ℝ) :
    0 < ∑ k, Real.exp (t k) :=
  Finset.sum_pos (fun k _ => Real.exp_pos _) Finset.univ_nonempty

/-- The max-shift of the log-sum trick is exact in real arithmetic:
B + log(sum_k exp(t k - B)) = log(sum_k exp(t k)) for B the row maximum. -/
lemma maxshift {K : ℕ} [NeZero K] (t : Fin K → ℝ) :
    rowMax t + Real.log (∑ k, Real.exp (t k - rowMax t)) = lse t := by
  have h1 : (∑ k, Real.exp (t k - rowMax t))
      = (∑ k, Real.exp (t k)) / Real.exp (rowMax t) := by
    rw [Finset.sum_div]
    exact Finset.sum_congr rfl fun k _ => Real.exp_sub _ _
  rw [h1, Real.log_div (sum_exp_pos t).ne' (Real.exp_ne_zero _), Real.log_exp, lse]
  ring

/-- The likelihood recorded by E_step is the sum over documents of the exact
per-document log-sum-exp. -/
lemma complete_ll_self_lse {D K : ℕ} [NeZero K] (t : Fin D → Fin K → ℝ) :
    complete_ll t t = ∑ d, lse (fun k => t d k) := by
  rw [complete_ll_self]
  exact Finset.sum_congr rfl fun d _ => maxshift (fun k => t d k)

/-- The responsibility row computed by E_step from a log-weight row (the
softmax of the row). -/
noncomputable def softZ {D K : ℕ} (t : Fin D → Fin K → ℝ) : Fin D → Fin K → ℝ :=
  fun d k => Real.exp (t d k) / ∑ j, Real.exp (t d j)

lemma E_step_zs_softZ {D V K : ℕ} [NeZero K] (data : Fin D → Fin V → ℝ)
    (s : EMState D V K) :
    (E_step data s).zs = softZ (logWeights data s.rhos s.betas) := rfl

lemma softZ_pos {D K : ℕ} [NeZero K] (t : Fin D → Fin K → ℝ) (d : Fin D) (k : Fin K) :
    0 < softZ t d k :=
  div_pos (Real.exp_pos _) (sum_exp_pos _)

lemma softZ_row_sum {D K : ℕ} [NeZero K] (t : Fin D → Fin K → ℝ) (d : Fin D) :
    ∑ k, softZ t d k = 1 := by
  simp only [softZ]
  rw [← Finset.sum_div]
  exact div_self (sum_exp_pos _).ne'

lemma softZ_log {D K : ℕ} [NeZero K] (t : Fin D → Fin K → ℝ) (d : Fin D) (k : Fin K) :
    Real.log (softZ t d k) = t d k - lse (fun j => t d j) := by
  simp only [softZ]
  rw [Real.log_div (Real.exp_ne_zero _) (sum_exp_pos _).ne', Real.log_exp, lse]

/-- Per-document bound: the free energy lse(t) - sum_k z k * t k with z the
softmax of t is a lower bound for the same expression at any other row. -/
lemma lse_bound {D K : ℕ} [NeZero K] (t : Fin D → Fin K → ℝ) (d : Fin D)
    (u : Fin K → ℝ) :
    lse (fun j => t d j) - ∑ k, softZ t d k * t d k
      ≤ lse u - ∑ k, softZ t d k * u k := by
  have hgibbs := gibbs (fun k => softZ t d k) (fun k => softZ ![u] 0 k)
    (fun k => (softZ_pos t d k).le) (fun k => (softZ_pos ![u] 0 k).le)
    (fun k _ => softZ_pos ![u] 0 k) (le_of_eq (softZ_row_sum ![u] 0))
  rw [softZ_row_sum t d] at hgibbs
  have hlogq : ∀ k, Real.log (softZ ![u] 0 k) = u k - lse u := by
    intro k
    rw [softZ_log ![u] 0 k]
    rfl
  have hlogp : ∀ k, Real.log (softZ t d k / 1) = t d k - lse (fun j => t d j) := by
    intro k
    rw [div_one, softZ_log]
  calc lse (fun j => t d j) - ∑ k, softZ t d k * t d k
      = -∑ k, softZ t d k * (t d k - lse (fun j => t d j)) := by
        rw [Finset.sum_congr rfl fun k _ => mul_sub (softZ t d k) (t d k) _,
          Finset.sum_sub_distrib, ← Finset.sum_mul, softZ_row_sum t d]
        ring
    _ ≤ -∑ k, softZ t d k * (u k - lse u) := by
        have h1 : ∑ k, softZ t d k * (u k - lse u)
            ≤ ∑ k, softZ t d k * (t d k - lse (fun j => t d j)) := by
          calc ∑ k, softZ t d k * (u k - lse u)
              = ∑ k, softZ t d k * Real.log (softZ ![u] 0 k) := by
                exact Finset.sum_congr rfl fun k _ => by rw [hlogq k]
            _ ≤ ∑ k, softZ t d k * Real.log (softZ t d k / 1) := hgibbs
            _ = ∑ k, softZ t d k * (t d k - lse (fun j => t d j)) := by
                exact Finset.sum_congr rfl fun k _ => by rw [hlogp k]
        linarith
    _ = lse u - ∑ k, softZ t d k * u k := by
        rw [Finset.sum_congr rfl fun k _ => mul_sub (softZ t d k) (u k) _,
          Finset.sum_sub_distrib, ← Finset.sum_mul, softZ_row_sum t d]
        ring

/-- The corpus log-likelihood that an E_step from parameters (rhos, betas)
records (abbreviation for the complete_ll value at the log-weight matrix). -/
noncomputable def llOf {D V K : ℕ} [NeZero K] (data : Fin D → Fin V → ℝ)
    (rhos : Fin K → ℝ) (betas : Fin K → Fin V → ℝ) : ℝ :=
  complete_ll (logWeights data rhos betas) (logWeights data rhos betas)

lemma E_step_ll_llOf {D V K : ℕ} [NeZero K] (data : Fin D → Fin V → ℝ)
    (s : EMState D V K) : (E_step data s).ll = llOf data s.rhos s.betas := rfl

/-- The rho update of M_step as a function of the responsibility matrix. -/
noncomputable def newRho {D K : ℕ} (z : Fin D → Fin K → ℝ) : Fin K → ℝ :=
  fun k => (∑ d, z d k) / (D : ℝ)

/-- The beta update of M_step as a function of the responsibility matrix. -/
noncomputable def newBeta {D V K : ℕ} (data : Fin D → Fin V → ℝ)
    (z : Fin D → Fin K → ℝ) : Fin K → Fin V → ℝ :=
  fun k v => (∑ d, z d k * data d v) / ∑ w, ∑ d, z d k * data d w

lemma EMpair_rhos {D V K : ℕ} [NeZero K] (data : Fin D → Fin V → ℝ)
    (s : EMState D V K) :
    (EMpair data s).rhos = newRho (softZ (logWeights data s.rhos s.betas)) := rfl

lemma EMpair_betas {D V K : ℕ} [NeZero K] (data : Fin D → Fin V → ℝ)
    (s : EMState D V K) :
    (EMpair data s).betas = newBeta data (softZ (logWeights data s.rhos s.betas)) := rfl

/-- Invariant carried along a run: rhos is a positive sub-probability
vector, the beta rows are non-negative sub-probability vectors, and every
beta entry in a vocabulary column that occurs somewhere in the corpus is
positive.  It holds for a valid strictly positive initial parameter state
and is preserved by every E/M pair. -/
def ParamsOK {D V K : ℕ} (data : Fin D → Fin V → ℝ)
    (rhos : Fin K → ℝ) (betas : Fin K → Fin V → ℝ) : Prop :=
  (∀ k, 0 < rhos k) ∧ (∑ k, rhos k ≤ 1) ∧ (∀ k v, 0 ≤ betas k v)
    ∧ (∀ k, ∑ v, betas k v ≤ 1) ∧ (∀ k v, (∃ d, 0 < data d v) → 0 < betas k v)

/-- Gibbs step for the mixing weights: the M-step rho maximises the rho part
of the expected complete log-likelihood. -/
lemma Q_rho {D K : ℕ} (z : Fin D → Fin K → ℝ) (rhos : Fin K → ℝ)
    (hz0 : ∀ d k, 0 ≤ z d k) (hzrow : ∀ d, ∑ k, z d k = 1)
    (hrpos : ∀ k, 0 < rhos k) (hrsum : ∑ k, rhos k ≤ 1) :
    ∑ k, (∑ d, z d k) * Real.log (rhos k)
      ≤ ∑ k, (∑ d, z d k) * Real.log (newRho z k) := by
  have hA : ∑ k, ∑ d, z d k = (D : ℝ) := by
    rw [Finset.sum_comm, Finset.sum_congr rfl fun d _ => hzrow d]
    simp
  have hg := gibbs (fun k => ∑ d, z d k) rhos
    (fun k => Finset.sum_nonneg fun d _ => hz0 d k)
    (fun k => (hrpos k).le) (fun k _ => hrpos k) hrsum
  rw [hA] at hg
  exact hg

/-- Gibbs step for one emission row: the M-step beta row maximises the beta
part of the expected complete log-likelihood for its topic. -/
lemma Q_beta_row {D V K : ℕ} (data : Fin D → Fin V → ℝ) (z : Fin D → Fin K → ℝ)
    (k : Fin K) (b : Fin V → ℝ)
    (hz0 : ∀ d k, 0 ≤ z d k) (hX : ∀ d v, 0 ≤ data d v)
    (hb0 : ∀ v, 0 ≤ b v) (hbsum : ∑ v, b v ≤ 1)
    (hbcol : ∀ v, (∃ d, 0 < data d v) → 0 < b v) :
    ∑ v, (∑ d, z d k * data d v) * Real.log (b v)
      ≤ ∑ v, (∑ d, z d k * data d v) * Real.log (newBeta data z k v) := by
  refine gibbs (fun v => ∑ d, z d k * data d v) b
    (fun v => Finset.sum_nonneg fun d _ => mul_nonneg (hz0 d k) (hX d v))
    hb0 ?_ hbsum
  intro v hv
  refine hbcol v ?_
  by_contra hc
  push_neg at hc
  have hzero : ∀ d, data d v = 0 := fun d => le_antisymm (hc d) (hX d v)
  have : (∑ d, z d k * data d v) = 0 := by
    refine Finset.sum_eq_zero ?_
    intro d _
    rw [hzero d, mul_zero]
  exact absurd this hv.ne'

/-- Decomposition of the expected complete log-likelihood into its rho part
and its beta part. -/
lemma Q_decomp {D V K : ℕ} (data : Fin D → Fin V → ℝ) (z : Fin D → Fin K → ℝ)
    (rhos : Fin K → ℝ) (betas : Fin K → Fin V → ℝ) :
    ∑ d, ∑ k, z d k * logWeights data rhos betas d k
      = (∑ k, (∑ d, z d k) * Real.log (rhos k))
        + ∑ k, ∑ v, (∑ d, z d k * data d v) * Real.log (betas k v) := by
  have h1 : ∀ d k, z d k * logWeights data rhos betas d k
      = z d k * Real.log (rhos k) + ∑ v, (z d k * data d v) * Real.log (betas k v) := by
    intro d k
    simp only [logWeights]
    rw [mul_add, Finset.mul_sum]
    congr 1
    exact Finset.sum_congr rfl fun v _ => (mul_assoc _ _ _).symm
  calc ∑ d, ∑ k, z d k * logWeights data rhos betas d k
      = ∑ d, ∑ k, (z d k * Real.log (rhos k)
          + ∑ v, (z d k * data d v) * Real.log (betas k v)) :=
        Finset.sum_congr rfl fun d _ => Finset.sum_congr rfl fun k _ => h1 d k
    _ = (∑ d, ∑ k, z d k * Real.log (rhos k))
        + ∑ d, ∑ k, ∑ v, (z d k * data d v) * Real.log (betas k v) := by
        simp only [Finset.sum_add_distrib]
    _ = (∑ k, (∑ d, z d k) * Real.log (rhos k))
        + ∑ k, ∑ v, (∑ d, z d k * data d v) * Real.log (betas k v) := by
        congr 1
        · rw [Finset.sum_comm]
          exact Finset.sum_congr rfl fun k _ => (Finset.sum_mul _ _ _).symm
        · rw [Finset.sum_comm]
          refine Finset.sum_congr rfl fun k _ => ?_
          rw [Finset.sum_comm]
          exact Finset.sum_congr rfl fun v _ => (Finset.sum_mul _ _ _).symm

/-- The M-step parameters do not decrease the expected complete
log-likelihood under the current responsibilities. -/
lemma Q_improve {D V K : ℕ} (data : Fin D → Fin V → ℝ) (z : Fin D → Fin K → ℝ)
    (rhos : Fin K → ℝ) (betas : Fin K → Fin V → ℝ)
    (hz0 : ∀ d k, 0 ≤ z d k) (hzrow : ∀ d, ∑ k, z d k = 1)
    (hX : ∀ d v, 0 ≤ data d v) (hOK : ParamsOK data rhos betas) :
    ∑ d, ∑ k, z d k * logWeights data rhos betas d k
      ≤ ∑ d, ∑ k, z d k * logWeights data (newRho z) (newBeta data z) d k := by
  obtain ⟨hrpos, hrsum, hb0, hbsum, hbcol⟩ := hOK
  rw [Q_decomp, Q_decomp]
  refine add_le_add (Q_rho z rhos hz0 hzrow hrpos hrsum) (Finset.sum_le_sum ?_)
  intro k _
  exact Q_beta_row data z k (fun v => betas k v) hz0 hX
    (fun v => hb0 k v) (hbsum k) (fun v hv => hbcol k v hv)

/-- The invariant is preserved by the M-step update computed from positive
responsibilities whose rows sum to 1. -/
lemma ParamsOK_step {D V K : ℕ} [NeZero D] (data : Fin D → Fin V → ℝ)
    (z : Fin D → Fin K → ℝ)
    (hz : ∀ d k, 0 < z d k) (hzrow : ∀ d, ∑ k, z d k = 1)
    (hX : ∀ d v, 0 ≤ data d v) :
    ParamsOK data (newRho z) (newBeta data z) := by
  have hD : (0 : ℝ) < (D : ℝ) :=
    Nat.cast_pos.mpr (Nat.pos_of_ne_zero (NeZero.ne D))
  refine ⟨?_, ?_, ?_, ?_, ?_⟩
  · intro k
    exact div_pos (Finset.sum_pos (fun d _ => hz d k) Finset.univ_nonempty) hD
  · simp only [newRho]
    rw [← Finset.sum_div, Finset.sum_comm, Finset.sum_congr rfl fun d _ => hzrow d]
    simp
  · intro k v
    exact div_nonneg
      (Finset.sum_nonneg fun d _ => mul_nonneg (hz d k).le (hX d v))
      (Finset.sum_nonneg fun w _ =>
        Finset.sum_nonneg fun d _ => mul_nonneg (hz d k).le (hX d w))
  · intro k
    by_cases hden : (∑ w, ∑ d, z d k * data d w) = 0
    · simp only [newBeta]
      rw [hden]
      simp
    · simp only [newBeta]
      rw [← Finset.sum_div, div_self hden]
  · intro k v hv
    obtain ⟨d0, hd0⟩ := hv
    have hterm : 0 < z d0 k * data d0 v := mul_pos (hz d0 k) hd0
    have hnum : 0 < ∑ d, z d k * data d v :=
      lt_of_lt_of_le hterm
        (Finset.single_le_sum (fun d _ => mul_nonneg (hz d k).le (hX d v))
          (Finset.mem_univ d0))
    have hden : 0 < ∑ w, ∑ d, z d k * data d w :=
      lt_of_lt_of_le hnum
        (Finset.single_le_sum
          (fun w _ => Finset.sum_nonneg fun d _ => mul_nonneg (hz d k).le (hX d w))
          (Finset.mem_univ v))
    exact div_pos hnum hden

/-- EM monotonicity for one E/M pair: starting from parameters satisfying
the invariant, the corpus log-likelihood recorded by the next E-step is at
least the one recorded now. -/
lemma llOf_le {D V K : ℕ} [NeZero K] (data : Fin D → Fin V → ℝ)
    (rhos : Fin K → ℝ) (betas : Fin K → Fin V → ℝ)
    (hX : ∀ d v, 0 ≤ data d v) (hOK : ParamsOK data rhos betas) :
    llOf data rhos betas
      ≤ llOf data (newRho (softZ (logWeights data rhos betas)))
          (newBeta data (softZ (logWeights data rhos betas))) := by
  set t := logWeights data rhos betas with ht
  set z := softZ t with hzdef
  set rhos2 := newRho z with hr2
  set betas2 := newBeta data z with hb2
  set t2 := logWeights data rhos2 betas2 with ht2
  have e1 : llOf data rhos betas = ∑ d, lse (fun k => t d k) := by
    rw [llOf, ← ht, complete_ll_self_lse]
  have e2 : llOf data rhos2 betas2 = ∑ d, lse (fun k => t2 d k) := by
    rw [llOf, ← ht2, complete_ll_self_lse]
  rw [e1, e2]
  have h1 : ∑ d, (lse (fun j => t d j) - ∑ k, z d k * t d k)
      ≤ ∑ d, (lse (fun j => t2 d j) - ∑ k, z d k * t2 d k) := by
    refine Finset.sum_le_sum ?_
    intro d _
    exact lse_bound t d (fun k => t2 d k)
  have h2 : ∑ d, ∑ k, z d k * t d k ≤ ∑ d, ∑ k, z d k * t2 d k := by
    rw [ht, ht2, hr2, hb2]
    exact Q_improve data z rhos betas
      (fun d k => (softZ_pos t d k).le) (softZ_row_sum t) hX hOK
  rw [Finset.sum_sub_distrib, Finset.sum_sub_distrib] at h1
  linarith

lemma stateOK_step {D V K : ℕ} [NeZero D] [NeZero K] (data : Fin D → Fin V → ℝ)
    (s : EMState D V K) (hX : ∀ d v, 0 ≤ data d v)
    (h : ParamsOK data s.rhos s.betas) :
    ParamsOK data (EMpair data s).rhos (EMpair data s).betas := by
  rw [EMpair_rhos, EMpair_betas]
  exact ParamsOK_step data _ (softZ_pos _) (softZ_row_sum _) hX

lemma pair_ll_mono {D V K : ℕ} [NeZero D] [NeZero K] (data : Fin D → Fin V → ℝ)
    (s : EMState D V K) (hX : ∀ d v, 0 ≤ data d v)
    (h : ParamsOK data s.rhos s.betas) :
    (E_step data s).ll ≤ (E_step data (EMpair data s)).ll := by
  rw [E_step_ll_llOf, E_step_ll_llOf, EMpair_rhos, EMpair_betas]
  exact llOf_le data s.rhos s.betas hX h

lemma iterate_OK {D V K : ℕ} [NeZero D] [NeZero K] (data : Fin D → Fin V → ℝ)
    (s0 : EMState D V K) (hX : ∀ d v, 0 ≤ data d v)
    (h0 : ParamsOK data s0.rhos s0.betas) :
    ∀ n, ParamsOK data ((EMpair data)^[n] s0).rhos ((EMpair data)^[n] s0).betas := by
  intro n
  induction n with
  | zero => exact h0
  | succ n ih =>
    rw [Function.iterate_succ_apply']
    exact stateOK_step data _ hX ih

/-- The trajectory after n pairs is the initial trajectory followed by the
E-step likelihood of each intermediate state in order. -/
lemma iterate_history {D V K : ℕ} [NeZero K] (data : Fin D → Fin V → ℝ)
    (s0 : EMState D V K) :
    ∀ n, ((EMpair data)^[n] s0).ll_history
      = s0.ll_history
        ++ (List.range n).map (fun j => (E_step data ((EMpair data)^[j] s0)).ll) := by
  intro n
  induction n with
  | zero => simp
  | succ n ih =>
    rw [Function.iterate_succ_apply', EMpair_ll_history, ih, List.range_succ,
      List.map_append, ← List.append_assoc]
    rfl

lemma iterate_entry {D V K : ℕ} [NeZero K] (data : Fin D → Fin V → ℝ)
    (s0 : EMState D V K) (h0 : s0.ll_history = []) (n i : ℕ) (hi : i < n) :
    ((EMpair data)^[n] s0).ll_history.getD i 0
      = (E_step data ((EMpair data)^[i] s0)).ll := by
  rw [iterate_history data s0 n, h0, List.nil_append]
  have hlen : i < ((List.range n).map
      (fun j => (E_step data ((EMpair data)^[j] s0)).ll)).length := by
    simpa using hi
  rw [List.getD_eq_getElem _ _ hlen, List.getElem_map, List.getElem_range]

/-- C8 (amended): for every run of the fit whose initial parameter state is
a valid simplex pair with strictly positive entries (and a non-negative
count matrix), the likelihood trajectory is non-decreasing: every pair of
consecutive entries recorded by successive E-steps (with an M-step between
them) satisfies trajectory[i+1] - trajectory[i] >= -1e-9 (indeed >= 0 in
exact arithmetic).  Without the validity hypothesis the claim fails: the
constructor also accepts invalid size-1 priors, for which the trajectory
can strictly decrease. -/
theorem em_monotone_traj {D V K : ℕ} [NeZero D] [NeZero K]
    (data : Fin D → Fin V → ℝ) (s0 : EMState D V K)
    (hX : ∀ d v, 0 ≤ data d v)
    (hr : ∀ k, 0 < s0.rhos k) (hrs : ∑ k, s0.rhos k = 1)
    (hb : ∀ k v, 0 < s0.betas k v) (hbs : ∀ k, ∑ v, s0.betas k v = 1)
    (h0 : s0.ll_history = []) :
    ∀ n i, i + 1 < n →
      ((EMpair data)^[n] s0).ll_history.getD (i + 1) 0
          - ((EMpair data)^[n] s0).ll_history.getD i 0
        ≥ -(1 / 1000000000) := by
  have hOK0 : ParamsOK data s0.rhos s0.betas :=
    ⟨hr, le_of_eq hrs, fun k v => (hb k v).le, fun k => le_of_eq (hbs k),
      fun k v _ => hb k v⟩
  intro n i hin
  rw [iterate_entry data s0 h0 n i (by omega), iterate_entry data s0 h0 n (i + 1) hin]
  have hmono : (E_step data ((EMpair data)^[i] s0)).ll
      ≤ (E_step data ((EMpair data)^[i + 1] s0)).ll := by
    rw [Function.iterate_succ_apply']
    exact pair_ll_mono data _ hX (iterate_OK data s0 hX hOK0 i)
  linarith

theorem em_monotone_traj_witness :
    ((∀ d v, (0 : ℝ) ≤ X1 d v)
        ∧ (∀ k, 0 < S11.rhos k) ∧ (∑ k, S11.rhos k = 1)
        ∧ (∀ k v, 0 < S11.betas k v) ∧ (∀ k, ∑ v, S11.betas k v = 1)
        ∧ S11.ll_history = [])
      ∧ (∀ n i, i + 1 < n →
          ((EMpair X1)^[n] S11).ll_history.getD (i + 1) 0
              - ((EMpair X1)^[n] S11).ll_history.getD i 0
            ≥ -(1 / 1000000000)) :=
  ⟨⟨fun _ _ => by simp [X1], fun _ => by simp [S11], by simp [S11],
      fun _ _ => by simp [S11], fun _ => by simp [S11], rfl⟩,
    em_monotone_traj X1 S11 (fun _ _ => by simp [X1]) (fun _ => by simp [S11])
      (by simp [S11]) (fun _ _ => by simp [S11]) (fun _ => by simp [S11]) rfl⟩

/-- C8 counterexample: the fit also runs from constructor-accepted invalid
size-1 priors; from rho = [4], beta = [[1]] on the count matrix [[1]] the
trajectory after two E-steps is [log 4, 0], and its consecutive difference
0 - log 4 is far below the -1e-9 slack, refuting the claim quantified over
every run of the fit. -/
theorem em_monotone_traj_cex :
    ((EMpair X1)^[2] S4).ll_history = [Real.log 4, 0]
      ∧ ((EMpair X1)^[2] S4).ll_history.getD 1 0
          - ((EMpair X1)^[2] S4).ll_history.getD 0 0
        < -(1 / 1000000000) := by
  have h2 : (EMpair X1)^[2] S4 = S4B := by
    rw [show (2 : ℕ) = 1 + 1 from rfl, Function.iterate_succ_apply',
      Function.iterate_one, EMpair_X1_S4, EMpair_X1_S4A]
  rw [h2]
  refine ⟨rfl, ?_⟩
  rw [show (S4B.ll_history.getD 1 0) = 0 from rfl,
    show (S4B.ll_history.getD 0 0) = Real.log 4 from rfl]
  have := one_le_log_four
  linarith
